import Mathlib

/-!
Verification of the inline suggestion / ghost-text overlay engine of the
`canner` browser extension (`browser-extension/src/content/content.ts`,
class `InlineSuggestionManager`).

The DOM-facing TypeScript code is shallowly embedded as follows:
* editable text is the plain-text projection of the element (`List Char`),
  with a collapsed selection modelled as an optional caret offset;
* the per-element manager state (`currentSuggestion`, `ghostElement`,
  `isComposing`, `suppressedUntil`) is an explicit record;
* overlay DOM nodes attached to `document.body` for a manager are counted
  by an explicit `docOverlays` field, and the `ghostElement` handle records
  whether the node it points to is currently attached;
* `Date.now()` is a `Nat` supplied by the environment of each event;
* layout quantities read from the browser (`getBoundingClientRect`,
  `offsetWidth`) are integer parameters supplied by the environment;
* JavaScript strings are `List Char`; `trim`, `split(/\s+/)`,
  `lastIndexOf`, `substring`, `toLowerCase` and `startsWith` are given
  faithful executable models (for `\s` and `toLowerCase` the ASCII
  fragment is modelled; every input appearing in the claims is ASCII).
-/

namespace Canner

/-- ASCII fragment of the JavaScript whitespace class `\s` (also the
characters removed by `String.prototype.trim`). -/
def isWs (c : Char) : Bool :=
  c = ' ' || c = '\t' || c = '\n' || c = '\r' || c = '\x0b' || c = '\x0c'

/-- JavaScript `s.trim()`: remove leading and trailing whitespace. -/
def jsTrim (l : List Char) : List Char :=
  ((l.dropWhile isWs).reverse.dropWhile isWs).reverse

/-- Prepend a character to the first token of a token list. -/
def extendHead (c : Char) : List (List Char) → List (List Char)
  | [] => [[c]]
  | t :: ts => (c :: t) :: ts

/-- JavaScript `s.split(/\s+/)`: split on maximal whitespace runs.  As in
JS, `"".split` gives `[""]`, a leading run gives a leading `""` and a
trailing run gives a trailing `""`. -/
def splitWsRuns : List Char → List (List Char)
  | [] => [[]]
  | [c] => if isWs c then [[], []] else [[c]]
  | c :: d :: cs =>
    if isWs c then
      (if isWs d then splitWsRuns (d :: cs) else [] :: splitWsRuns (d :: cs))
    else extendHead c (splitWsRuns (d :: cs))

/-- `text.trim().split(/\s+/)` followed by `words[words.length - 1] || ''`,
the current-word computation shared by both branches of
`InlineSuggestionManager.getCurrentText`. -/
def lastWordJS (l : List Char) : List Char :=
  (splitWsRuns (jsTrim l)).getLastD []

/-- Declarative description of the current word: discard the whitespace
immediately before the caret, then take the maximal non-whitespace run
ending there. -/
def currentWordSpec (l : List Char) : List Char :=
  ((l.reverse.dropWhile isWs).takeWhile (fun c => !(isWs c))).reverse

/-- The claim's phrase "the contiguous non-whitespace run ending at the
caret", written directly: the maximal non-whitespace suffix of the text
before the caret. -/
def runEndingAtCaret (l : List Char) : List Char :=
  (l.reverse.takeWhile (fun c => !(isWs c))).reverse

section SplitLemmas

theorem extendHead_ne_nil (c : Char) (ts : List (List Char)) :
    extendHead c ts ≠ [] := by
  cases ts <;> simp [extendHead]

theorem splitWsRuns_ne_nil (l : List Char) : splitWsRuns l ≠ [] := by
  induction l with
  | nil => simp [splitWsRuns]
  | cons c cs ih =>
    cases cs with
    | nil =>
      by_cases hc : isWs c = true <;> simp [splitWsRuns, hc]
    | cons d cs' =>
      by_cases hc : isWs c = true
      · by_cases hd : isWs d = true
        · simpa [splitWsRuns, hc, hd] using ih
        · simp [splitWsRuns, hc, hd]
      · simpa [splitWsRuns, hc] using extendHead_ne_nil c (splitWsRuns (d :: cs'))

theorem getLastD_irrel {β : Type} (l : List β) (d e : β) (h : l ≠ []) :
    l.getLastD d = l.getLastD e := by
  cases l with
  | nil => exact absurd rfl h
  | cons x xs => rw [List.getLastD_cons, List.getLastD_cons]

theorem takeWhile_all {β : Type} {q : β → Bool} {a : List β}
    (h : ∀ x ∈ a, q x = true) : a.takeWhile q = a := by
  induction a with
  | nil => simp
  | cons x xs ih =>
    have hx : q x = true := h x (by simp)
    simp only [List.takeWhile_cons, hx, if_true]
    rw [ih (fun y hy => h y (by simp [hy]))]

theorem takeWhile_append_of_all {β : Type} {q : β → Bool} {a b : List β}
    (h : ∀ x ∈ a, q x = true) :
    (a ++ b).takeWhile q = a ++ b.takeWhile q := by
  induction a with
  | nil => simp
  | cons x xs ih =>
    have hx : q x = true := h x (by simp)
    simp only [List.cons_append, List.takeWhile_cons, hx, if_true]
    rw [ih (fun y hy => h y (by simp [hy]))]

theorem takeWhile_append_of_exists {β : Type} {q : β → Bool} {a b : List β}
    (h : ∃ x ∈ a, q x = false) :
    (a ++ b).takeWhile q = a.takeWhile q := by
  induction a with
  | nil => obtain ⟨x, hx, _⟩ := h; simp at hx
  | cons x xs ih =>
    by_cases hx : q x = true
    · simp only [List.cons_append, List.takeWhile_cons, hx, if_true]
      obtain ⟨y, hy, hqy⟩ := h
      rcases List.mem_cons.mp hy with h1 | h1
      · subst h1; rw [hx] at hqy; cases hqy
      · rw [ih ⟨y, h1, hqy⟩]
    · have hx' : q x = false := by revert hx; cases q x <;> simp
      simp [List.takeWhile_cons, hx']

theorem takeWhile_append_ws {β : Type} {q : β → Bool} (a s b : List β)
    (hs : s ≠ []) (hall : ∀ x ∈ s, q x = false) :
    (a ++ (s ++ b)).takeWhile q = a.takeWhile q := by
  by_cases ha : ∀ x ∈ a, q x = true
  · rw [takeWhile_append_of_all ha]
    cases s with
    | nil => exact absurd rfl hs
    | cons y ys =>
      have hy : q y = false := hall y (by simp)
      simp only [List.cons_append, List.takeWhile_cons, hy]
      simp only [Bool.false_eq_true, if_false, List.append_nil]
      exact (takeWhile_all ha).symm
  · push_neg at ha
    obtain ⟨x, hx, hqx⟩ := ha
    have hqx' : q x = false := by revert hqx; cases q x <;> simp
    rw [takeWhile_append_of_exists ⟨x, hx, hqx'⟩]

/-- If a list splits into a single token, it is all non-whitespace and the
token is the list itself. -/
theorem splitWsRuns_singleton (l : List Char) (t : List Char)
    (h : splitWsRuns l = [t]) : (∀ c ∈ l, isWs c = false) ∧ t = l := by
  induction l generalizing t with
  | nil =>
    simp only [splitWsRuns, List.cons.injEq, and_true] at h
    exact ⟨by simp, h.symm⟩
  | cons c cs ih =>
    cases cs with
    | nil =>
      by_cases hc : isWs c = true
      · simp [splitWsRuns, hc] at h
      · simp only [splitWsRuns, hc, Bool.false_eq_true, if_false,
          List.cons.injEq, and_true] at h
        refine ⟨?_, h.symm⟩
        intro x hx
        rcases List.mem_cons.mp hx with h3 | h3
        · subst h3; revert hc; cases isWs x <;> simp
        · simp at h3
    | cons d cs' =>
      by_cases hc : isWs c = true
      · exfalso
        by_cases hd : isWs d = true
        · simp only [splitWsRuns, hc, if_true, hd] at h
          obtain ⟨hall, ht⟩ := ih t h
          have := hall d (by simp)
          rw [hd] at this; cases this
        · simp only [splitWsRuns, hc, if_true, hd, Bool.false_eq_true, if_false,
            List.cons.injEq] at h
          exact absurd h.2 (splitWsRuns_ne_nil (d :: cs'))
      · rcases hr : splitWsRuns (d :: cs') with _ | ⟨t', ts⟩
        · exact absurd hr (splitWsRuns_ne_nil _)
        · simp only [splitWsRuns, hc, Bool.false_eq_true, if_false, hr,
            extendHead, List.cons.injEq] at h
          obtain ⟨h1, h2⟩ := h
          subst h2
          obtain ⟨hall, ht⟩ := ih t' hr
          constructor
          · intro x hx
            rcases List.mem_cons.mp hx with h3 | h3
            · subst h3; revert hc; cases isWs x <;> simp
            · exact hall x h3
          · rw [h1.symm, ht]

/-- An all-non-whitespace list splits into exactly one token, itself. -/
theorem splitWsRuns_of_all (l : List Char)
    (h : ∀ c ∈ l, isWs c = false) : splitWsRuns l = [l] := by
  induction l with
  | nil => simp [splitWsRuns]
  | cons c cs ih =>
    have hc := h c (by simp)
    cases cs with
    | nil => simp [splitWsRuns, hc]
    | cons d cs' =>
      have hrec := ih (fun x hx => h x (by simp [hx]))
      simp [splitWsRuns, hc, hrec, extendHead]

/-- A split with at least two tokens means the list has a whitespace
character. -/
theorem exists_ws_of_splitWsRuns_two (l : List Char) (t1 t2 : List Char)
    (ts : List (List Char)) (h : splitWsRuns l = t1 :: t2 :: ts) :
    ∃ c ∈ l, isWs c = true := by
  by_contra hno
  push_neg at hno
  have hall : ∀ c ∈ l, isWs c = false := by
    intro c hc
    have := hno c hc
    revert this; cases isWs c <;> simp
  rw [splitWsRuns_of_all l hall] at h
  simp at h

/-- The last token of the whitespace split is the maximal non-whitespace
suffix. -/
theorem lastWord_splitWsRuns (l : List Char) :
    (splitWsRuns l).getLastD [] =
      (l.reverse.takeWhile (fun c => !(isWs c))).reverse := by
  induction l with
  | nil => simp [splitWsRuns]
  | cons c cs ih =>
    cases cs with
    | nil =>
      by_cases hc : isWs c = true <;>
        simp [splitWsRuns, hc, List.getLastD_cons, List.takeWhile_cons]
    | cons d cs' =>
      by_cases hc : isWs c = true
      · have hrev : (c :: d :: cs').reverse.takeWhile (fun c => !(isWs c))
            = (d :: cs').reverse.takeWhile (fun c => !(isWs c)) := by
          have heq : (c :: d :: cs').reverse = (d :: cs').reverse ++ ([c] ++ []) := by
            simp
          rw [heq]
          exact takeWhile_append_ws _ _ _ (by simp)
            (by intro x hx; simp at hx; subst hx; simp [hc])
        by_cases hd : isWs d = true
        · simp only [splitWsRuns, hc, if_true, hd]
          rw [hrev]
          exact ih
        · have hne := splitWsRuns_ne_nil (d :: cs')
          simp only [splitWsRuns, hc, if_true, hd, Bool.false_eq_true, if_false]
          rw [List.getLastD_cons, getLastD_irrel _ _ [] hne, hrev]
          exact ih
      · rcases hr : splitWsRuns (d :: cs') with _ | ⟨t, ts⟩
        · exact absurd hr (splitWsRuns_ne_nil _)
        · cases ts with
          | nil =>
            obtain ⟨hall, ht⟩ := splitWsRuns_singleton (d :: cs') t hr
            subst ht
            have hallrev : ∀ x ∈ (d :: cs').reverse, (fun c => !(isWs c)) x = true := by
              intro x hx
              simp only [List.mem_reverse] at hx
              simp [hall x hx]
            simp only [splitWsRuns, hc, Bool.false_eq_true, if_false, hr,
              extendHead, List.getLastD_cons, List.getLastD_nil]
            have heq : (c :: d :: cs').reverse = (d :: cs').reverse ++ [c] := by simp
            rw [heq, takeWhile_append_of_all hallrev]
            simp [List.takeWhile_cons, hc]
          | cons t2 ts2 =>
            obtain ⟨w, hw, hws⟩ := exists_ws_of_splitWsRuns_two (d :: cs') t t2 ts2 hr
            simp only [splitWsRuns, hc, Bool.false_eq_true, if_false, hr, extendHead]
            have h1 : ((c :: t) :: t2 :: ts2).getLastD [] = (t2 :: ts2).getLastD [] := by
              rw [List.getLastD_cons, getLastD_irrel _ _ [] (by simp)]
            have h2 : (t :: t2 :: ts2).getLastD [] = (t2 :: ts2).getLastD [] := by
              rw [List.getLastD_cons, getLastD_irrel _ _ [] (by simp)]
            rw [h1, h2.symm, hr.symm, ih]
            have hrev : (c :: d :: cs').reverse.takeWhile (fun c => !(isWs c))
                = (d :: cs').reverse.takeWhile (fun c => !(isWs c)) := by
              have heq : (c :: d :: cs').reverse = (d :: cs').reverse ++ [c] := by simp
              rw [heq]
              refine takeWhile_append_of_exists ⟨w, by simp only [List.mem_reverse]; exact hw, by simp [hws]⟩
            rw [hrev]

/-- Appending trailing whitespace does not change the maximal leading
non-whitespace run. -/
theorem takeWhile_append_all_ws (a b : List Char)
    (hb : ∀ x ∈ b, isWs x = true) :
    (a ++ b).takeWhile (fun c => !(isWs c)) = a.takeWhile (fun c => !(isWs c)) := by
  cases b with
  | nil => simp
  | cons y ys =>
    have heq : a ++ y :: ys = a ++ ((y :: ys) ++ []) := by simp
    rw [heq]
    exact takeWhile_append_ws _ _ _ (by simp)
      (fun x hx => by simp [hb x hx])

theorem dropWhile_takeWhile_append_ws (a b : List Char)
    (hb : ∀ x ∈ b, isWs x = true) :
    ((a ++ b).dropWhile isWs).takeWhile (fun c => !(isWs c))
      = (a.dropWhile isWs).takeWhile (fun c => !(isWs c)) := by
  induction a with
  | nil =>
    simp only [List.nil_append, List.dropWhile_nil]
    have hnil : b.dropWhile isWs = [] := List.dropWhile_eq_nil_iff.mpr hb
    simp [hnil]
  | cons c a' ih =>
    by_cases hc : isWs c = true
    · simp only [List.cons_append, List.dropWhile_cons, hc, if_true]
      exact ih
    · simp only [List.cons_append, List.dropWhile_cons, hc, Bool.false_eq_true,
        if_false]
      simp only [List.takeWhile_cons, hc, Bool.not_false, if_true]
      rw [takeWhile_append_all_ws a' b hb]

/-- The computation of `getCurrentText` (trim, split on whitespace, last
token) equals its declarative description. -/
theorem lastWordJS_eq (l : List Char) : lastWordJS l = currentWordSpec l := by
  unfold lastWordJS currentWordSpec
  rw [lastWord_splitWsRuns]
  congr 1
  have h1 : (jsTrim l).reverse = (l.dropWhile isWs).reverse.dropWhile isWs := by
    simp [jsTrim]
  rw [h1]
  have h2 : l.reverse = (l.dropWhile isWs).reverse ++ (l.takeWhile isWs).reverse := by
    conv_lhs => rw [(List.takeWhile_append_dropWhile (p := isWs) (l := l)).symm]
    simp
  rw [h2]
  rw [dropWhile_takeWhile_append_ws]
  intro x hx
  simp only [List.mem_reverse] at hx
  exact List.mem_takeWhile_imp hx

end SplitLemmas

/-! ## Word-start scans used by the commit path

`replaceInInput` walks `startPos` backwards from the caret while
`value[startPos] !== ' ' && value[startPos] !== '\n'`, then increments it;
`replaceInContentEditable` instead computes `currentContent.lastIndexOf(' ')`
and adds one (or starts at 0 when there is no space).  Both are modelled
exactly and then characterised declaratively. -/

/-- Separator set of the backward scan in `replaceInInput`: only a space or
a newline stops the scan (notably a tab does not, unlike the `\s+` split
used for matching). -/
def isInputBreak (c : Char) : Bool := c = ' ' || c = '\n'

/-- The `while (startPos >= 0 && ...) startPos--` loop of `replaceInInput`,
including the final `startPos++`: called with the caret offset, it returns
the final `startPos`.  An out-of-range JS index reads `undefined`, which is
not a separator, so the scan continues. -/
def scanBack (brk : Char → Bool) (value : List Char) : Nat → Nat
  | 0 => 0
  | j + 1 =>
    match value[j]? with
    | some c => if brk c then j + 1 else scanBack brk value j
    | none => scanBack brk value j

/-- Separator of `replaceInContentEditable`: only a space (`lastIndexOf(' ')`
ignores newlines and tabs). -/
def isCeBreak (c : Char) : Bool := c = ' '

/-- JavaScript `l.lastIndexOf(' ')`, as an optional index. -/
def lastIndexOfSp : List Char → Option Nat
  | [] => none
  | c :: cs =>
    match lastIndexOfSp cs with
    | some k => some (k + 1)
    | none => if c = ' ' then some 0 else none

/-- `lastSpaceIndex >= 0 ? lastSpaceIndex + 1 : 0` from
`replaceInContentEditable`. -/
def ceStartIndex (l : List Char) : Nat :=
  match lastIndexOfSp l with
  | some j => j + 1
  | none => 0

section ScanLemmas

/-- The backward scan of `replaceInInput` lands at the start of the maximal
run of non-separator characters ending at the caret. -/
theorem scanBack_eq (brk : Char → Bool) (value : List Char) :
    ∀ caret, caret ≤ value.length →
      scanBack brk value caret
        = caret - ((value.take caret).reverse.takeWhile (fun c => !(brk c))).length := by
  intro caret
  induction caret with
  | zero => intro _; simp [scanBack]
  | succ j ih =>
    intro hle
    have hj : j < value.length := Nat.lt_of_succ_le hle
    have hget : value[j]? = some value[j] := List.getElem?_eq_getElem hj
    have htake : (value.take (j + 1)).reverse
        = value[j] :: (value.take j).reverse := by
      rw [List.take_succ, hget]
      simp
    have hrun : ((value.take j).reverse.takeWhile (fun c => !(brk c))).length ≤ j := by
      calc ((value.take j).reverse.takeWhile (fun c => !(brk c))).length
          ≤ (value.take j).reverse.length := (List.takeWhile_prefix _).length_le
        _ = (value.take j).length := by simp
        _ ≤ j := by simp
    by_cases hb : brk value[j] = true
    · have hval : scanBack brk value (j + 1) = j + 1 := by
        simp [scanBack, hget, hb]
      rw [hval, htake]
      simp [List.takeWhile_cons, hb]
    · have hb' : brk value[j] = false := by
        revert hb; cases brk value[j] <;> simp
      have hstep : scanBack brk value (j + 1) = scanBack brk value j := by
        simp [scanBack, hget, hb']
      rw [hstep, ih (Nat.le_of_lt hj), htake]
      simp only [List.takeWhile_cons, hb', Bool.not_false, if_true,
        List.length_cons]
      omega

theorem lastIndexOfSp_append_singleton (l : List Char) (c : Char) :
    lastIndexOfSp (l ++ [c])
      = if c = ' ' then some l.length else lastIndexOfSp l := by
  induction l with
  | nil => by_cases hc : c = ' ' <;> simp [lastIndexOfSp, hc]
  | cons x l' ih =>
    by_cases hc : c = ' '
    · rw [if_pos hc, List.cons_append]
      show (match lastIndexOfSp (l' ++ [c]) with
            | some k => some (k + 1)
            | none => if x = ' ' then some 0 else none) = some (x :: l').length
      rw [ih, if_pos hc]
      simp
    · rw [if_neg hc, List.cons_append]
      show (match lastIndexOfSp (l' ++ [c]) with
            | some k => some (k + 1)
            | none => if x = ' ' then some 0 else none) = lastIndexOfSp (x :: l')
      rw [ih, if_neg hc]
      rfl

/-- The content-editable start index is the start of the maximal run of
non-space characters ending at the caret. -/
theorem ceStartIndex_eq (l : List Char) :
    ceStartIndex l
      = l.length - (l.reverse.takeWhile (fun c => !(isCeBreak c))).length := by
  induction l using List.reverseRecOn with
  | nil => simp [ceStartIndex, lastIndexOfSp]
  | append_singleton l c ih =>
    by_cases hc : c = ' '
    · have hstep : ceStartIndex (l ++ [c]) = l.length + 1 := by
        unfold ceStartIndex
        rw [lastIndexOfSp_append_singleton]
        simp [hc]
      rw [hstep, List.reverse_append]
      simp [List.takeWhile_cons, isCeBreak, hc]
    · have hrun : (l.reverse.takeWhile (fun c => !(isCeBreak c))).length ≤ l.length := by
        calc (l.reverse.takeWhile (fun c => !(isCeBreak c))).length
            ≤ l.reverse.length := (List.takeWhile_prefix _).length_le
          _ = l.length := by simp
      have hstep : ceStartIndex (l ++ [c]) = ceStartIndex l := by
        unfold ceStartIndex
        rw [lastIndexOfSp_append_singleton]
        simp [hc]
      rw [hstep, ih]
      have hrev : (l ++ [c]).reverse = c :: l.reverse := by simp
      rw [hrev, List.takeWhile_cons]
      have hcb : (!(isCeBreak c)) = true := by simp [isCeBreak, hc]
      rw [if_pos hcb]
      simp only [List.length_cons, List.length_append, List.length_singleton,
        List.length_nil]
      omega

end ScanLemmas

/-! ## Data model

`ResponseRecord` mirrors the stored response objects (`id`, `title`,
`content`, `tags`, `usage_count`); `Editable` is the tracked element:
its kind (`contenteditable='true'`, native `INPUT`/`TEXTAREA`, or
anything else), its plain-text content, and the collapsed selection
offset (`none` models an absent `window.getSelection()` /
`selectionStart === null`). -/

/-- A stored response record, as kept in `chrome.storage.local`. -/
structure ResponseRecord where
  id : String
  title : String
  content : String
  tags : List String
  usage_count : Nat
deriving DecidableEq, Repr

/-- JS `record.content || record.title || ""`: the empty string is falsy,
so an empty `content` falls back to `title`. -/
def recKey (r : ResponseRecord) : List Char :=
  (if r.content = "" then r.title else r.content).toList

/-- `(s.content || s.title || "").toLowerCase().startsWith(prefixLower)`,
the match predicate of both `fetchSuggestions` and `handleInput`. -/
def matchesPfx (pfx : List Char) (r : ResponseRecord) : Bool :=
  (pfx.map Char.toLower).isPrefixOf ((recKey r).map Char.toLower)

/-- `InlineSuggestionManager.fetchSuggestions`: filter the cached
`responses` list, preserving storage order. -/
def fetchSuggestions (cache : List ResponseRecord) (pfx : List Char) :
    List ResponseRecord :=
  cache.filter (matchesPfx pfx)

/-- Kind of a tracked editable element. -/
inductive EdKind where
  | ce      -- getAttribute('contenteditable') === 'true'
  | native  -- tagName 'TEXTAREA' or 'INPUT'
  | other
deriving DecidableEq, Repr

/-- A tracked editable element: plain-text projection plus collapsed
selection offset. -/
structure Editable where
  kind : EdKind
  text : List Char
  sel : Option Nat
deriving DecidableEq, Repr

/-- `InlineSuggestionManager.getCurrentText`: for a contenteditable,
the text content from the start of the element to the caret; for a
native input, `value.substring(0, selectionStart || 0)`; then
`trim().split(/\s+/)` and the last word.  Returns `''` when there is no
selection (contenteditable), or for an unrecognised element. -/
def getCurrentText (ed : Editable) : List Char :=
  match ed.kind with
  | .ce =>
    match ed.sel with
    | none => []
    | some caret => lastWordJS (ed.text.take caret)
  | .native => lastWordJS (ed.text.take (ed.sel.getD 0))
  | .other => []

/-- A ghost overlay node held by the manager: its display text and
whether the node is currently attached to `document.body`
(`positionTwitterOverlay` can `remove()` the node before appending it,
in which case the handle points to a detached node). -/
structure Ghost where
  displayText : List Char
  attached : Bool
deriving DecidableEq, Repr

/-- The mutable per-element state of `InlineSuggestionManager`, plus a
`docOverlays` counter for the manager's overlay nodes currently attached
to the document (model instrumentation for the at-most-one-overlay
invariant). -/
structure ManagerState where
  editable : Editable
  ghostElement : Option Ghost
  currentSuggestion : Option ResponseRecord
  isComposing : Bool
  suppressedUntil : Nat
  docOverlays : Nat
deriving DecidableEq, Repr

/-- Geometry read by `positionTwitterOverlay`: the right edge of the
collapsed selection rectangle, the right edge of the element's bounding
rectangle, and the overlay's `offsetWidth`.  Vertical placement does not
influence whether the overlay is appended and is not modelled. -/
structure TwitterLayout where
  rectRight : Int
  containerRight : Int
  overlayWidth : Int
deriving DecidableEq, Repr

/-- Environment of one `input` event: `Date.now()`, the
`chrome.storage.local` snapshot, the host check
(`hostname.includes("twitter") || hostname.includes("x.com")`), and the
layout read back from the browser. -/
structure InputEnv where
  now : Nat
  cache : List ResponseRecord
  isTwitterHost : Bool
  layout : TwitterLayout
deriving Repr

/-- Outcome of `positionTwitterOverlay`: either the node is never
appended to the document, or it is appended, possibly with a clamped
`max-width`. -/
inductive TwitterPlacement where
  | notAppended
  | appended (clampedMaxWidth : Option Int)
deriving DecidableEq, Repr

/-- `InlineSuggestionManager.positionTwitterOverlay` (Strategy B):
anchors at `left = rect.right + 1`; if the overlay would cross
`containerRect.right - 5`, the available width decides between clamping
(`> 100`: at most `min 250 available`; `> 50`: exactly the available
width) and not showing the overlay at all (`overlay.remove()` before the
`appendChild` is reached).  The JS locals `left` and `availableWidth` are
inlined. -/
def positionTwitterOverlay (hasSelection : Bool) (lay : TwitterLayout) :
    TwitterPlacement :=
  if hasSelection = false then .notAppended
  else if lay.containerRight - 5 < lay.rectRight + 1 + lay.overlayWidth then
    (if 100 < lay.containerRight - (lay.rectRight + 1) - 10 then
      .appended (some (min 250 (lay.containerRight - (lay.rectRight + 1) - 10)))
    else if 50 < lay.containerRight - (lay.rectRight + 1) - 10 then
      .appended (some (lay.containerRight - (lay.rectRight + 1) - 10))
    else .notAppended)
  else .appended none

/-- `InlineSuggestionManager.clearGhostElement`: `remove()` the node (a
no-op on the document when the node is already detached) and drop the
handle. -/
def clearGhostElement (st : ManagerState) : ManagerState :=
  match st.ghostElement with
  | none => st
  | some g =>
    { st with
      ghostElement := none,
      docOverlays := st.docOverlays - (if g.attached then 1 else 0) }

/-- `InlineSuggestionManager.clearSuggestion`. -/
def clearSuggestion (st : ManagerState) : ManagerState :=
  clearGhostElement { st with currentSuggestion := none }

/-- Whether a placement outcome left the overlay node attached. -/
def TwitterPlacement.isAttached : TwitterPlacement → Bool
  | .notAppended => false
  | .appended _ => true

/-- `InlineSuggestionManager.createGhostElement`: always clears the
previous ghost first; only a contenteditable element gets an overlay
node (`positionLinkedInOverlay` always appends, `positionTwitterOverlay`
may decline).  In both cases the handle is assigned. -/
def createGhostElement (st : ManagerState) (env : InputEnv)
    (text fullText : List Char) (twitterStyle : Bool) : ManagerState :=
  let st1 := clearGhostElement st
  match st1.editable.kind with
  | .ce =>
    if twitterStyle then
      let att :=
        (positionTwitterOverlay st1.editable.sel.isSome env.layout).isAttached
      { st1 with
        ghostElement := some ⟨text, att⟩,
        docOverlays := st1.docOverlays + (if att then 1 else 0) }
    else
      { st1 with
        ghostElement := some ⟨fullText, true⟩,
        docOverlays := st1.docOverlays + 1 }
  | _ => st1

/-- `InlineSuggestionManager.showSuggestion`: record the suggestion, then
create a ghost.  On a Twitter host only the remainder beyond the typed
prefix is displayed, truncated at 70 characters with an ellipsis. -/
def showSuggestion (st : ManagerState) (env : InputEnv)
    (sugg : ResponseRecord) (currentText : List Char) : ManagerState :=
  let st1 := { st with currentSuggestion := some sugg }
  let fullText := recKey sugg
  if env.isTwitterHost then
    let d0 :=
      if (currentText.map Char.toLower).isPrefixOf (fullText.map Char.toLower)
      then fullText.drop currentText.length
      else fullText
    let d1 :=
      if 70 < d0.length then d0.take 67 ++ ('.' :: '.' :: '.' :: [])
      else d0
    createGhostElement st1 env d1 fullText true
  else
    createGhostElement st1 env fullText fullText false

/-- `InlineSuggestionManager.handleInput`: suppression window, IME
composition, minimum prefix length, the empty-contenteditable check, the
storage lookup and the first-match selection.  The JS locals
`currentText` and `suggestions` are inlined. -/
def handleInput (st : ManagerState) (env : InputEnv) : ManagerState :=
  if env.now < st.suppressedUntil then clearSuggestion st
  else if st.isComposing then st
  else if getCurrentText st.editable = []
      ∨ (getCurrentText st.editable).length < 2 then clearSuggestion st
  else if st.editable.kind = .ce ∧ (jsTrim st.editable.text).length = 0 then
    clearSuggestion st
  else if (fetchSuggestions env.cache (getCurrentText st.editable)).length = 0 then
    clearSuggestion st
  else
    match (fetchSuggestions env.cache (getCurrentText st.editable)).filter
        (matchesPfx (getCurrentText st.editable)) with
    | [] => clearSuggestion st
    | s :: _ => showSuggestion st env s (getCurrentText st.editable)

/-- `InlineSuggestionManager.replaceInInput`: backward scan to the word
start, splice `fullText` over `[startPos, cursorPos)`, caret after the
inserted text. -/
def replaceInInput (value : List Char) (sel : Option Nat)
    (fullText : List Char) : Editable :=
  let cursorPos := sel.getD 0
  let startPos := scanBack isInputBreak value cursorPos
  ⟨.native,
   value.take startPos ++ fullText ++ value.drop cursorPos,
   some (startPos + fullText.length)⟩

/-- `InlineSuggestionManager.replaceInContentEditable`: early return when
no selection exists; `lastIndexOf(' ') + 1` (or 0) as the word start; the
`TreeWalker` finds no text node in an empty element, in which case
nothing is replaced; otherwise splice and collapse the selection after
the inserted node. -/
def replaceInContentEditable (content : List Char) (sel : Option Nat)
    (fullText : List Char) : Editable :=
  match sel with
  | none => ⟨.ce, content, none⟩
  | some caret =>
    let currentContent := content.take caret
    let startIndex := ceStartIndex currentContent
    if content = [] then ⟨.ce, content, some caret⟩
    else
      ⟨.ce,
       content.take startIndex ++ fullText ++ content.drop caret,
       some (startIndex + fullText.length)⟩

/-- `InlineSuggestionManager.acceptSuggestion`: set the suppression
window to `Date.now() + 500`, splice the full record text
(`content || title || ''`) into the editable, then clear the
suggestion. -/
def acceptSuggestion (st : ManagerState) (now : Nat) : ManagerState :=
  match st.currentSuggestion with
  | none => st
  | some sugg =>
    let st1 := { st with suppressedUntil := now + 500 }
    let fullText := recKey sugg
    let st2 :=
      match st1.editable.kind with
      | .ce =>
        { st1 with
          editable := replaceInContentEditable st1.editable.text st1.editable.sel fullText }
      | .native =>
        { st1 with
          editable := replaceInInput st1.editable.text st1.editable.sel fullText }
      | .other => st1
    clearSuggestion st2

/-- Keys distinguished by `InlineSuggestionManager.handleKeydown`. -/
inductive Key where
  | tab | escape | backspace | del | other
deriving DecidableEq, Repr

/-- `InlineSuggestionManager.handleKeydown`: Tab commits when a
suggestion is active, Escape dismisses; Backspace/Delete only schedule a
delayed re-check (modelled as the separate event `Event.deleteCheck`). -/
def handleKeydown (st : ManagerState) (k : Key) (now : Nat) : ManagerState :=
  match k with
  | .tab => if st.currentSuggestion.isSome then acceptSuggestion st now else st
  | .escape => if st.currentSuggestion.isSome then clearSuggestion st else st
  | .backspace => st
  | .del => st
  | .other => st

/-- The `setTimeout(..., 10)` body scheduled on Backspace/Delete. -/
def delayedDeleteCheck (st : ManagerState) : ManagerState :=
  if getCurrentText st.editable = []
      ∨ (getCurrentText st.editable).length < 2 then clearSuggestion st
  else st

/-- Events delivered to one manager.  An `input` event carries the
editable's new text and selection (the user's edit happens before the
handler runs); the element's kind never changes. -/
inductive Event where
  | input (newText : List Char) (newSel : Option Nat) (env : InputEnv)
  | keydown (k : Key) (now : Nat)
  | deleteCheck
  | blur
  | compositionStart
  | compositionEnd

/-- One step of the per-element state machine: dispatch of the five DOM
listeners attached in the constructor (plus the delayed delete check). -/
def step (st : ManagerState) : Event → ManagerState
  | .input newText newSel env =>
    handleInput
      { st with editable := { st.editable with text := newText, sel := newSel } } env
  | .keydown k now => handleKeydown st k now
  | .deleteCheck => delayedDeleteCheck st
  | .blur => clearSuggestion st
  | .compositionStart => { st with isComposing := true }
  | .compositionEnd => { st with isComposing := false }

/-- A whole run of the state machine. -/
def run (st : ManagerState) (es : List Event) : ManagerState :=
  es.foldl step st

/-! ## Component lemmas for the state operations -/

section ComponentLemmas

variable (st : ManagerState) (env : InputEnv)

@[simp] theorem clearGhostElement_editable :
    (clearGhostElement st).editable = st.editable := by
  cases h : st.ghostElement <;> simp [clearGhostElement, h]

@[simp] theorem clearGhostElement_currentSuggestion :
    (clearGhostElement st).currentSuggestion = st.currentSuggestion := by
  cases h : st.ghostElement <;> simp [clearGhostElement, h]

@[simp] theorem clearGhostElement_ghostElement :
    (clearGhostElement st).ghostElement = none := by
  cases h : st.ghostElement <;> simp [clearGhostElement, h]

@[simp] theorem clearGhostElement_isComposing :
    (clearGhostElement st).isComposing = st.isComposing := by
  cases h : st.ghostElement <;> simp [clearGhostElement, h]

@[simp] theorem clearGhostElement_suppressedUntil :
    (clearGhostElement st).suppressedUntil = st.suppressedUntil := by
  cases h : st.ghostElement <;> simp [clearGhostElement, h]

@[simp] theorem clearSuggestion_editable :
    (clearSuggestion st).editable = st.editable := by
  simp [clearSuggestion]

@[simp] theorem clearSuggestion_currentSuggestion :
    (clearSuggestion st).currentSuggestion = none := by
  simp [clearSuggestion]

@[simp] theorem clearSuggestion_ghostElement :
    (clearSuggestion st).ghostElement = none := by
  simp [clearSuggestion]

@[simp] theorem clearSuggestion_isComposing :
    (clearSuggestion st).isComposing = st.isComposing := by
  simp [clearSuggestion]

@[simp] theorem clearSuggestion_suppressedUntil :
    (clearSuggestion st).suppressedUntil = st.suppressedUntil := by
  simp [clearSuggestion]

@[simp] theorem createGhostElement_editable (t f : List Char) (b : Bool) :
    (createGhostElement st env t f b).editable = st.editable := by
  unfold createGhostElement
  cases hk : st.editable.kind <;>
    (simp only [clearGhostElement_editable, hk]
     try (split <;> simp))

@[simp] theorem createGhostElement_currentSuggestion (t f : List Char) (b : Bool) :
    (createGhostElement st env t f b).currentSuggestion = st.currentSuggestion := by
  unfold createGhostElement
  cases hk : st.editable.kind <;>
    (simp only [clearGhostElement_editable, hk, clearGhostElement_currentSuggestion]
     try (split <;> simp))

@[simp] theorem createGhostElement_suppressedUntil (t f : List Char) (b : Bool) :
    (createGhostElement st env t f b).suppressedUntil = st.suppressedUntil := by
  unfold createGhostElement
  cases hk : st.editable.kind <;>
    (simp only [clearGhostElement_editable, hk, clearGhostElement_suppressedUntil]
     try (split <;> simp))

@[simp] theorem showSuggestion_currentSuggestion (s : ResponseRecord)
    (ct : List Char) :
    (showSuggestion st env s ct).currentSuggestion = some s := by
  unfold showSuggestion
  split <;> simp

@[simp] theorem showSuggestion_editable (s : ResponseRecord) (ct : List Char) :
    (showSuggestion st env s ct).editable = st.editable := by
  unfold showSuggestion
  split <;> simp

@[simp] theorem showSuggestion_suppressedUntil (s : ResponseRecord) (ct : List Char) :
    (showSuggestion st env s ct).suppressedUntil = st.suppressedUntil := by
  unfold showSuggestion
  split <;> simp

end ComponentLemmas

/-! ## Characters of the current word -/

theorem mem_dropWhile_of_false {p : Char → Bool} {l : List Char} {c : Char}
    (hc : c ∈ l) (hw : p c = false) : c ∈ l.dropWhile p := by
  induction l with
  | nil => simp at hc
  | cons x xs ih =>
    by_cases hx : p x = true
    · simp only [List.dropWhile_cons, hx, if_true]
      rcases List.mem_cons.mp hc with h1 | h1
      · subst h1; rw [hx] at hw; cases hw
      · exact ih h1
    · have hx' : p x = false := by revert hx; cases p x <;> simp
      simp only [List.dropWhile_cons, hx', Bool.false_eq_true, if_false]
      exact hc

theorem currentWordSpec_chars (l : List Char) :
    ∀ c ∈ currentWordSpec l, c ∈ l ∧ isWs c = false := by
  intro c hc
  unfold currentWordSpec at hc
  rw [List.mem_reverse] at hc
  have hws := List.mem_takeWhile_imp hc
  simp only [Bool.not_eq_true'] at hws
  have hmem1 : c ∈ l.reverse.dropWhile isWs :=
    (List.takeWhile_prefix _).sublist.subset hc
  have hmem2 : c ∈ l.reverse := (List.dropWhile_suffix _).sublist.subset hmem1
  exact ⟨List.mem_reverse.mp hmem2, hws⟩

theorem getCurrentText_chars (ed : Editable) :
    ∀ c ∈ getCurrentText ed, c ∈ ed.text ∧ isWs c = false := by
  intro c hc
  cases hk : ed.kind
  case ce =>
    cases hs : ed.sel
    case none => simp [getCurrentText, hk, hs] at hc
    case some caret =>
      simp only [getCurrentText, hk, hs, lastWordJS_eq] at hc
      obtain ⟨h1, h2⟩ := currentWordSpec_chars _ c hc
      exact ⟨List.mem_of_mem_take h1, h2⟩
  case native =>
    simp only [getCurrentText, hk, lastWordJS_eq] at hc
    obtain ⟨h1, h2⟩ := currentWordSpec_chars _ c hc
    exact ⟨List.mem_of_mem_take h1, h2⟩
  case other => simp [getCurrentText, hk] at hc

theorem jsTrim_ne_nil_of_mem {l : List Char} {c : Char} (hc : c ∈ l)
    (hw : isWs c = false) : jsTrim l ≠ [] := by
  intro hnil
  unfold jsTrim at hnil
  have h1 : (l.dropWhile isWs).reverse.dropWhile isWs = [] := by
    have := congrArg List.reverse hnil
    simpa using this
  have h2 : ∀ x ∈ (l.dropWhile isWs).reverse, isWs x = true :=
    fun x hx => List.dropWhile_eq_nil_iff.mp h1 x hx
  have h3 : c ∈ (l.dropWhile isWs).reverse := by
    rw [List.mem_reverse]
    exact mem_dropWhile_of_false hc hw
  rw [h2 c h3] at hw
  cases hw

/-- When the current word is non-empty, the element's full text does not
trim to the empty string (discharges the extra empty-contenteditable
check in `handleInput`). -/
theorem jsTrim_length_ne_zero (st : ManagerState)
    (h : getCurrentText st.editable ≠ []) :
    ¬(jsTrim st.editable.text).length = 0 := by
  rcases hne : getCurrentText st.editable with _ | ⟨c, rest⟩
  · exact absurd hne h
  · have hc : c ∈ getCurrentText st.editable := by rw [hne]; simp
    obtain ⟨h1, h2⟩ := getCurrentText_chars st.editable c hc
    intro hlen
    exact jsTrim_ne_nil_of_mem h1 h2 (List.length_eq_zero.mp hlen)

/-! ## The selection made by `handleInput` -/

/-- Under the preconditions of the matching path (not suppressed, not
composing, current word of length at least 2), `handleInput` selects
exactly the first record of the cache, in storage order, whose
content-or-title starts case-insensitively with the current word — and
selects nothing when no record matches. -/
theorem handleInput_first_match (st : ManagerState) (env : InputEnv)
    (h1 : st.suppressedUntil ≤ env.now) (h2 : st.isComposing = false)
    (h3 : 2 ≤ (getCurrentText st.editable).length) :
    (handleInput st env).currentSuggestion
      = (env.cache.filter (matchesPfx (getCurrentText st.editable))).head? := by
  have hlen : ¬(getCurrentText st.editable = []
      ∨ (getCurrentText st.editable).length < 2) := by
    rintro (hl | hl)
    · rw [hl] at h3; simp at h3
    · omega
  have hguard : ¬(st.editable.kind = EdKind.ce
      ∧ (jsTrim st.editable.text).length = 0) := by
    rintro ⟨_, hz⟩
    refine jsTrim_length_ne_zero st ?_ hz
    intro hnil
    rw [hnil] at h3
    simp at h3
  unfold handleInput
  rw [if_neg (by omega), if_neg (by simp [h2]), if_neg hlen, if_neg hguard]
  have hidem : (fetchSuggestions env.cache (getCurrentText st.editable)).filter
        (matchesPfx (getCurrentText st.editable))
      = env.cache.filter (matchesPfx (getCurrentText st.editable)) := by
    unfold fetchSuggestions
    rw [List.filter_filter]
    apply List.filter_congr
    intro a _
    exact Bool.and_self _
  rcases hF : env.cache.filter (matchesPfx (getCurrentText st.editable)) with _ | ⟨s, t⟩
  · have hz : (fetchSuggestions env.cache (getCurrentText st.editable)).length = 0 := by
      unfold fetchSuggestions
      rw [hF]
      rfl
    rw [if_pos hz]
    simp
  · have hz : ¬(fetchSuggestions env.cache (getCurrentText st.editable)).length = 0 := by
      unfold fetchSuggestions
      rw [hF]
      simp
    rw [if_neg hz, hidem, hF]
    simp

/-- `handleInput` on a short current word always ends with no active
suggestion and no ghost, provided no IME composition is in progress. -/
theorem handleInput_short_clears (st : ManagerState) (env : InputEnv)
    (h2 : st.isComposing = false)
    (h3 : (getCurrentText st.editable).length < 2) :
    (handleInput st env).currentSuggestion = none
      ∧ (handleInput st env).ghostElement = none := by
  unfold handleInput
  by_cases hsup : env.now < st.suppressedUntil
  · rw [if_pos hsup]; simp
  · rw [if_neg hsup, if_neg (by simp [h2]),
      if_pos (Or.inr h3 : getCurrentText st.editable = []
        ∨ (getCurrentText st.editable).length < 2)]
    simp

@[simp] theorem handleInput_editable (st : ManagerState) (env : InputEnv) :
    (handleInput st env).editable = st.editable := by
  unfold handleInput
  repeat' split
  all_goals simp

/-! ## The at-most-one-overlay invariant -/

/-- Number of attached overlay nodes reachable from a ghost handle. -/
def overlayWeight : Option Ghost → Nat
  | none => 0
  | some g => if g.attached then 1 else 0

/-- The document contains exactly as many overlay nodes of this manager
as the handle accounts for. -/
def OverlayInv (st : ManagerState) : Prop :=
  st.docOverlays = overlayWeight st.ghostElement

theorem overlayWeight_le_one (g : Option Ghost) : overlayWeight g ≤ 1 := by
  cases g with
  | none => simp [overlayWeight]
  | some g => cases hatt : g.attached <;> simp [overlayWeight, hatt]

theorem clearGhostElement_docOverlays (st : ManagerState) (h : OverlayInv st) :
    (clearGhostElement st).docOverlays = 0 := by
  unfold OverlayInv at h
  cases hg : st.ghostElement with
  | none =>
    unfold clearGhostElement
    rw [hg, h, hg]
    rfl
  | some g =>
    unfold clearGhostElement
    rw [hg]
    simp only []
    rw [h, hg]
    cases hatt : g.attached <;> simp [overlayWeight, hatt]

theorem inv_clearGhostElement (st : ManagerState) (h : OverlayInv st) :
    OverlayInv (clearGhostElement st) := by
  unfold OverlayInv
  rw [clearGhostElement_ghostElement, clearGhostElement_docOverlays st h]
  rfl

theorem inv_clearSuggestion (st : ManagerState) (h : OverlayInv st) :
    OverlayInv (clearSuggestion st) := by
  unfold clearSuggestion
  exact inv_clearGhostElement _ h

theorem clearSuggestion_docOverlays (st : ManagerState) (h : OverlayInv st) :
    (clearSuggestion st).docOverlays = 0 := by
  unfold clearSuggestion
  exact clearGhostElement_docOverlays _ h

theorem inv_createGhostElement (st : ManagerState) (env : InputEnv)
    (t f : List Char) (b : Bool) (h : OverlayInv st) :
    OverlayInv (createGhostElement st env t f b) := by
  have h0 : (clearGhostElement st).docOverlays = 0 :=
    clearGhostElement_docOverlays st h
  have hg0 : OverlayInv (clearGhostElement st) := inv_clearGhostElement st h
  unfold createGhostElement
  cases hk : st.editable.kind <;>
    simp only [clearGhostElement_editable, hk]
  case ce =>
    split
    · unfold OverlayInv
      cases hatt : (positionTwitterOverlay st.editable.sel.isSome env.layout).isAttached <;>
        simp [h0, overlayWeight, hatt]
    · unfold OverlayInv
      simp [h0, overlayWeight]
  case native => exact hg0
  case other => exact hg0

theorem inv_showSuggestion (st : ManagerState) (env : InputEnv)
    (s : ResponseRecord) (ct : List Char) (h : OverlayInv st) :
    OverlayInv (showSuggestion st env s ct) := by
  have h1 : OverlayInv { st with currentSuggestion := some s } := h
  unfold showSuggestion
  split <;> exact inv_createGhostElement _ _ _ _ _ h1

theorem inv_handleInput (st : ManagerState) (env : InputEnv)
    (h : OverlayInv st) : OverlayInv (handleInput st env) := by
  unfold handleInput
  repeat' split
  all_goals first
    | exact inv_clearSuggestion _ h
    | exact h
    | exact inv_showSuggestion _ _ _ _ h

theorem inv_acceptSuggestion (st : ManagerState) (now : Nat)
    (h : OverlayInv st) : OverlayInv (acceptSuggestion st now) := by
  unfold acceptSuggestion
  cases hs : st.currentSuggestion with
  | none => exact h
  | some sugg =>
    simp only []
    refine inv_clearSuggestion _ ?_
    cases hk : st.editable.kind <;> simp only [hk] <;> exact h

theorem inv_step (st : ManagerState) (e : Event) (h : OverlayInv st) :
    OverlayInv (step st e) := by
  cases e with
  | input newText newSel env => exact inv_handleInput _ env h
  | keydown k now =>
    cases k with
    | tab =>
      simp only [step, handleKeydown]
      split
      · exact inv_acceptSuggestion _ _ h
      · exact h
    | escape =>
      simp only [step, handleKeydown]
      split
      · exact inv_clearSuggestion _ h
      · exact h
    | backspace => exact h
    | del => exact h
    | other => exact h
  | deleteCheck =>
    simp only [step, delayedDeleteCheck]
    split
    · exact inv_clearSuggestion _ h
    · exact h
  | blur => exact inv_clearSuggestion _ h
  | compositionStart => exact h
  | compositionEnd => exact h

theorem inv_run (st : ManagerState) (es : List Event) (h : OverlayInv st) :
    OverlayInv (run st es) := by
  induction es generalizing st with
  | nil => exact h
  | cons e es ih => exact ih (step st e) (inv_step st e h)

/-! ## Behaviour on native inputs (no overlay is ever created) -/

theorem clearGhostElement_of_none (st : ManagerState)
    (h : st.ghostElement = none) : clearGhostElement st = st := by
  unfold clearGhostElement
  rw [h]

theorem clearSuggestion_docOverlays_of_none (st : ManagerState)
    (h : st.ghostElement = none) :
    (clearSuggestion st).docOverlays = st.docOverlays := by
  unfold clearSuggestion
  rw [clearGhostElement_of_none _ (by simpa using h)]

theorem createGhostElement_not_ce (st : ManagerState) (env : InputEnv)
    (t f : List Char) (b : Bool) (hk : ¬st.editable.kind = EdKind.ce) :
    createGhostElement st env t f b = clearGhostElement st := by
  unfold createGhostElement
  cases hkk : st.editable.kind <;> simp only [clearGhostElement_editable, hkk]
  exact absurd hkk hk

theorem showSuggestion_not_ce (st : ManagerState) (env : InputEnv)
    (s : ResponseRecord) (ct : List Char) (hk : ¬st.editable.kind = EdKind.ce)
    (hg : st.ghostElement = none) :
    (showSuggestion st env s ct).ghostElement = none
      ∧ (showSuggestion st env s ct).docOverlays = st.docOverlays := by
  have hkk : ¬({ st with currentSuggestion := some s } : ManagerState).editable.kind
      = EdKind.ce := hk
  have hgg : ({ st with currentSuggestion := some s } : ManagerState).ghostElement
      = none := hg
  unfold showSuggestion
  split <;>
    rw [createGhostElement_not_ce _ _ _ _ _ hkk,
      clearGhostElement_of_none _ hgg]
  · exact ⟨hg, rfl⟩
  · exact ⟨hg, rfl⟩

theorem handleInput_not_ce_ghost (st : ManagerState) (env : InputEnv)
    (hk : ¬st.editable.kind = EdKind.ce) (hg : st.ghostElement = none) :
    (handleInput st env).ghostElement = none
      ∧ (handleInput st env).docOverlays = st.docOverlays := by
  unfold handleInput
  repeat' split
  all_goals first
    | exact ⟨by simp, clearSuggestion_docOverlays_of_none _ hg⟩
    | exact ⟨hg, rfl⟩
    | exact showSuggestion_not_ce _ _ _ _ hk hg

theorem acceptSuggestion_kind (st : ManagerState) (now : Nat) :
    (acceptSuggestion st now).editable.kind = st.editable.kind := by
  unfold acceptSuggestion
  cases hs : st.currentSuggestion with
  | none => rfl
  | some sugg =>
    simp only []
    cases hk : st.editable.kind <;>
      simp [hk, replaceInContentEditable, replaceInInput]
    cases hsel : st.editable.sel <;> simp
    split <;> rfl

theorem acceptSuggestion_ghost_of_none (st : ManagerState) (now : Nat)
    (hg : st.ghostElement = none) :
    (acceptSuggestion st now).ghostElement = none
      ∧ (acceptSuggestion st now).docOverlays = st.docOverlays := by
  unfold acceptSuggestion
  cases hs : st.currentSuggestion with
  | none => exact ⟨hg, rfl⟩
  | some sugg =>
    simp only []
    cases hk : st.editable.kind <;> simp only [hk] <;>
      exact ⟨by simp, clearSuggestion_docOverlays_of_none _ hg⟩

theorem step_kind (st : ManagerState) (e : Event) :
    (step st e).editable.kind = st.editable.kind := by
  cases e with
  | input newText newSel env =>
    simp only [step]
    rw [handleInput_editable]
  | keydown k now =>
    cases k with
    | tab =>
      simp only [step, handleKeydown]
      split
      · exact acceptSuggestion_kind _ _
      · rfl
    | escape =>
      simp only [step, handleKeydown]
      split
      · simp
      · rfl
    | backspace => rfl
    | del => rfl
    | other => rfl
  | deleteCheck =>
    simp only [step, delayedDeleteCheck]
    split
    · simp
    · rfl
  | blur => simp [step]
  | compositionStart => rfl
  | compositionEnd => rfl

theorem step_native_no_ghost (st : ManagerState) (e : Event)
    (hk : st.editable.kind = EdKind.native) (hg : st.ghostElement = none)
    (hd : st.docOverlays = 0) :
    (step st e).ghostElement = none ∧ (step st e).docOverlays = 0 := by
  have hk' : ¬st.editable.kind = EdKind.ce := by rw [hk]; intro hcontra; cases hcontra
  cases e with
  | input newText newSel env =>
    have h := handleInput_not_ce_ghost
      { st with editable := { st.editable with text := newText, sel := newSel } }
      env hk' hg
    exact ⟨h.1, by rw [show (step st (Event.input newText newSel env)).docOverlays
      = (handleInput { st with
          editable := { st.editable with text := newText, sel := newSel } } env).docOverlays
      from rfl, h.2]; exact hd⟩
  | keydown k now =>
    cases k with
    | tab =>
      simp only [step, handleKeydown]
      split
      · have h := acceptSuggestion_ghost_of_none st now hg
        exact ⟨h.1, by rw [h.2]; exact hd⟩
      · exact ⟨hg, hd⟩
    | escape =>
      simp only [step, handleKeydown]
      split
      · exact ⟨by simp, by rw [clearSuggestion_docOverlays_of_none _ hg]; exact hd⟩
      · exact ⟨hg, hd⟩
    | backspace => exact ⟨hg, hd⟩
    | del => exact ⟨hg, hd⟩
    | other => exact ⟨hg, hd⟩
  | deleteCheck =>
    simp only [step, delayedDeleteCheck]
    split
    · exact ⟨by simp, by rw [clearSuggestion_docOverlays_of_none _ hg]; exact hd⟩
    · exact ⟨hg, hd⟩
  | blur =>
    refine ⟨by simp [step], ?_⟩
    show (clearSuggestion st).docOverlays = 0
    rw [clearSuggestion_docOverlays_of_none _ hg]
    exact hd
  | compositionStart => exact ⟨hg, hd⟩
  | compositionEnd => exact ⟨hg, hd⟩

theorem run_native_no_ghost (st : ManagerState) (es : List Event)
    (hk : st.editable.kind = EdKind.native) (hg : st.ghostElement = none)
    (hd : st.docOverlays = 0) :
    (run st es).ghostElement = none ∧ (run st es).docOverlays = 0 := by
  induction es generalizing st with
  | nil => exact ⟨hg, hd⟩
  | cons e es ih =>
    have hstep := step_native_no_ghost st e hk hg hd
    have hkind : (step st e).editable.kind = EdKind.native := by
      rw [step_kind]; exact hk
    exact ih (step st e) hkind hstep.1 hstep.2

/-! ## The commit path -/

theorem acceptSuggestion_suppressedUntil (st : ManagerState)
    (r : ResponseRecord) (now : Nat) (hs : st.currentSuggestion = some r) :
    (acceptSuggestion st now).suppressedUntil = now + 500 := by
  unfold acceptSuggestion
  rw [hs]
  simp only []
  cases hk : st.editable.kind <;> simp [hk]

theorem acceptSuggestion_native (st : ManagerState) (r : ResponseRecord)
    (now : Nat) (hs : st.currentSuggestion = some r)
    (hk : st.editable.kind = EdKind.native) :
    (acceptSuggestion st now).editable
      = replaceInInput st.editable.text st.editable.sel (recKey r) := by
  unfold acceptSuggestion
  rw [hs]
  simp only [hk]
  simp

theorem acceptSuggestion_ce (st : ManagerState) (r : ResponseRecord)
    (now : Nat) (hs : st.currentSuggestion = some r)
    (hk : st.editable.kind = EdKind.ce) :
    (acceptSuggestion st now).editable
      = replaceInContentEditable st.editable.text st.editable.sel (recKey r) := by
  unfold acceptSuggestion
  rw [hs]
  simp only [hk]
  simp

theorem handleInput_suppressed (st : ManagerState) (env : InputEnv)
    (h : env.now < st.suppressedUntil) :
    (handleInput st env).currentSuggestion = none
      ∧ (handleInput st env).ghostElement = none := by
  unfold handleInput
  rw [if_pos h]
  simp

/-! # Claims -/

/-- C1 (counterexample): in a textarea with value `"a\tbc"` and the caret
at the end, the typed prefix word used for matching is `"bc"` (the tab is
whitespace for the `\s+` split), but committing a suggestion with content
`"bcd"` yields the value `"bcd"`, not (text before the prefix word) +
(suggestion) + (text after the caret) = `"a\tbcd"`: the backward scan of
`replaceInInput` does not stop at a tab. -/
theorem tab_commit_prefix_word_counterexample :
    getCurrentText ⟨EdKind.native, "a\tbc".toList, some 4⟩ = "bc".toList
    ∧ (step ⟨⟨EdKind.native, "a\tbc".toList, some 4⟩, none,
        some ⟨"1", "t", "bcd", [], 0⟩, false, 0, 0⟩
        (Event.keydown Key.tab 0)).editable.text = "bcd".toList
    ∧ "bcd".toList
      ≠ "a\tbc".toList.take (4 - ("bc".toList).length)
          ++ "bcd".toList ++ "a\tbc".toList.drop 4 := by decide

/-- C1 (amended): committing an active suggestion via Tab yields
(text before the word start) + (full suggestion content) + (text after
the caret), with the caret immediately after the inserted text — where
the word start is found by scanning back from the caret over characters
other than space and newline for native inputs, and other than space for
contenteditable regions (this coincides with the typed prefix word except
when other whitespace, such as a tab or, for contenteditable, a newline,
intervenes).  For contenteditable the element must be non-empty (the
`TreeWalker` finds no text node otherwise) and a selection must exist. -/
theorem tab_commit_splices_at_separator_run (st : ManagerState)
    (r : ResponseRecord) (now : Nat) (text : List Char) (caret : Nat)
    (hs : st.currentSuggestion = some r) (hc : caret ≤ text.length) :
    (st.editable = ⟨EdKind.native, text, some caret⟩ →
      (step st (Event.keydown Key.tab now)).editable
        = ⟨EdKind.native,
           text.take (caret - ((text.take caret).reverse.takeWhile
               (fun c => !(isInputBreak c))).length)
             ++ recKey r ++ text.drop caret,
           some ((caret - ((text.take caret).reverse.takeWhile
               (fun c => !(isInputBreak c))).length) + (recKey r).length)⟩)
    ∧ (st.editable = ⟨EdKind.ce, text, some caret⟩ → text ≠ [] →
      (step st (Event.keydown Key.tab now)).editable
        = ⟨EdKind.ce,
           text.take (caret - ((text.take caret).reverse.takeWhile
               (fun c => !(isCeBreak c))).length)
             ++ recKey r ++ text.drop caret,
           some ((caret - ((text.take caret).reverse.takeWhile
               (fun c => !(isCeBreak c))).length) + (recKey r).length)⟩) := by
  have hstep : step st (Event.keydown Key.tab now) = acceptSuggestion st now := by
    simp [step, handleKeydown, hs]
  constructor
  · intro hed
    rw [hstep, acceptSuggestion_native st r now hs (by rw [hed]), hed]
    show replaceInInput text (some caret) (recKey r) = _
    unfold replaceInInput
    simp only [Option.getD_some]
    rw [scanBack_eq isInputBreak text caret hc]
  · intro hed hne
    rw [hstep, acceptSuggestion_ce st r now hs (by rw [hed]), hed]
    show replaceInContentEditable text (some caret) (recKey r) = _
    unfold replaceInContentEditable
    simp only []
    rw [if_neg hne, ceStartIndex_eq]
    have hlen : (text.take caret).length = caret := by
      rw [List.length_take]
      omega
    rw [hlen]

/-- C1 (witness): the amended theorem evaluated in a textarea with value
`"Hello wor"`, caret 9, committing `"world!"` gives `"Hello world!"` with
the caret at 12. -/
theorem tab_commit_splices_at_separator_run_witness :
    (step (⟨⟨EdKind.native, "Hello wor".toList, some 9⟩, none,
        some ⟨"w", "", "world!", [], 0⟩, false, 0, 0⟩ : ManagerState)
      (Event.keydown Key.tab 7)).editable
      = ⟨EdKind.native, "Hello world!".toList, some 12⟩ := by
  have h := (tab_commit_splices_at_separator_run
    (⟨⟨EdKind.native, "Hello wor".toList, some 9⟩, none,
        some ⟨"w", "", "world!", [], 0⟩, false, 0, 0⟩ : ManagerState)
    ⟨"w", "", "world!", [], 0⟩ 7 "Hello wor".toList 9
    (by decide) (by decide)).1 rfl
  rw [h]
  decide

/-- C2: for a current word of length at least 2, outside the suppression
window and outside IME composition, the suggestion selected by
`handleInput` is exactly the head of the cache filtered, in storage
order, by the case-insensitive content-or-title prefix test — so the
first matching record in storage order wins, no secondary ranking
(length, `usage_count`, recency) is applied, and no suggestion becomes
active when no record matches (`head?` of the empty filter is `none`). -/
theorem suggestion_selection_first_match (st : ManagerState) (env : InputEnv)
    (h1 : st.suppressedUntil ≤ env.now) (h2 : st.isComposing = false)
    (h3 : 2 ≤ (getCurrentText st.editable).length) :
    (handleInput st env).currentSuggestion
      = (env.cache.filter (matchesPfx (getCurrentText st.editable))).head? :=
  handleInput_first_match st env h1 h2 h3

/-- C2 (witness): two cached records both start with `"Hi"`; the first in
storage order is selected even though the second is shorter and has a
larger `usage_count`. -/
theorem suggestion_selection_first_match_witness :
    (handleInput
      (⟨⟨EdKind.native, "Hi".toList, some 2⟩, none, none, false, 0, 0⟩ : ManagerState)
      ⟨5, [⟨"a", "x", "Hi there! Great to connect.", [], 0⟩,
           ⟨"b", "y", "Hi!", [], 99⟩], false, ⟨0, 0, 0⟩⟩).currentSuggestion
      = some ⟨"a", "x", "Hi there! Great to connect.", [], 0⟩ := by
  have h := suggestion_selection_first_match
    (⟨⟨EdKind.native, "Hi".toList, some 2⟩, none, none, false, 0, 0⟩ : ManagerState)
    ⟨5, [⟨"a", "x", "Hi there! Great to connect.", [], 0⟩,
         ⟨"b", "y", "Hi!", [], 99⟩], false, ⟨0, 0, 0⟩⟩
    (by decide) (by decide) (by decide)
  rw [h]
  decide

/-- C3 (counterexample): with the editable containing `"Thank yo"` (caret
at the end) and the cache containing a record with content
`"Thank you for connecting!"`, NO suggestion becomes active (the matcher
tests the last word `"yo"`, which is not a case-insensitive prefix of the
record's content), and Tab leaves the content `"Thank yo"`, not
`"Thank you for connecting!"`. -/
theorem thank_yo_scenario_counterexample :
    (step (⟨⟨EdKind.ce, "Thank yo".toList, some 8⟩, none, none, false, 0, 0⟩
        : ManagerState)
      (Event.input "Thank yo".toList (some 8)
        ⟨100, [⟨"1", "Thanks", "Thank you for connecting!", [], 0⟩], false,
         ⟨0, 0, 0⟩⟩)).currentSuggestion = none
    ∧ (step (step (⟨⟨EdKind.ce, "Thank yo".toList, some 8⟩, none, none, false, 0, 0⟩
        : ManagerState)
      (Event.input "Thank yo".toList (some 8)
        ⟨100, [⟨"1", "Thanks", "Thank you for connecting!", [], 0⟩], false,
         ⟨0, 0, 0⟩⟩)) (Event.keydown Key.tab 101)).editable.text = "Thank yo".toList
    ∧ "Thank yo".toList ≠ "Thank you for connecting!".toList := by decide

/-- C3 (amended): in the `"Thank yo"` scenario the current word is
`"yo"`, the storage lookup returns no match, so no suggestion becomes
active and pressing Tab changes nothing: the editable keeps exactly
`"Thank yo"` with the caret still at 8. -/
theorem thank_yo_scenario_amended :
    getCurrentText ⟨EdKind.ce, "Thank yo".toList, some 8⟩ = "yo".toList
    ∧ fetchSuggestions [⟨"1", "Thanks", "Thank you for connecting!", [], 0⟩]
        "yo".toList = []
    ∧ (step (⟨⟨EdKind.ce, "Thank yo".toList, some 8⟩, none, none, false, 0, 0⟩
        : ManagerState)
      (Event.input "Thank yo".toList (some 8)
        ⟨100, [⟨"1", "Thanks", "Thank you for connecting!", [], 0⟩], false,
         ⟨0, 0, 0⟩⟩)).currentSuggestion = none
    ∧ (step (step (⟨⟨EdKind.ce, "Thank yo".toList, some 8⟩, none, none, false, 0, 0⟩
        : ManagerState)
      (Event.input "Thank yo".toList (some 8)
        ⟨100, [⟨"1", "Thanks", "Thank you for connecting!", [], 0⟩], false,
         ⟨0, 0, 0⟩⟩)) (Event.keydown Key.tab 101)).editable
      = ⟨EdKind.ce, "Thank yo".toList, some 8⟩ := by decide

/-- C4: committing via Tab sets `suppressedUntil` to the commit time plus
500 ms, and every input event whose time is before that deadline — in
particular the synthetic `input`/`change` events the commit itself
dispatches — ends with no active suggestion and no ghost. -/
theorem commit_suppression_window (st : ManagerState) (r : ResponseRecord)
    (tc : Nat) (hs : st.currentSuggestion = some r) :
    (step st (Event.keydown Key.tab tc)).suppressedUntil = tc + 500
    ∧ ∀ newText newSel env, env.now < tc + 500 →
        (step (step st (Event.keydown Key.tab tc))
          (Event.input newText newSel env)).currentSuggestion = none
        ∧ (step (step st (Event.keydown Key.tab tc))
          (Event.input newText newSel env)).ghostElement = none := by
  have hstep : step st (Event.keydown Key.tab tc) = acceptSuggestion st tc := by
    simp [step, handleKeydown, hs]
  have hsup : (step st (Event.keydown Key.tab tc)).suppressedUntil = tc + 500 := by
    rw [hstep]
    exact acceptSuggestion_suppressedUntil st r tc hs
  refine ⟨hsup, ?_⟩
  intro newText newSel env hlt
  exact handleInput_suppressed _ env (by
    show env.now < (step st (Event.keydown Key.tab tc)).suppressedUntil
    rw [hsup]
    exact hlt)

/-- C4 (witness): a concrete commit at time 7 suppresses an input event
arriving at time 300. -/
theorem commit_suppression_window_witness :
    (step (⟨⟨EdKind.native, "Hello wor".toList, some 9⟩, none,
        some ⟨"w", "", "world!", [], 0⟩, false, 0, 0⟩ : ManagerState)
      (Event.keydown Key.tab 7)).suppressedUntil = 507
    ∧ (step (step (⟨⟨EdKind.native, "Hello wor".toList, some 9⟩, none,
        some ⟨"w", "", "world!", [], 0⟩, false, 0, 0⟩ : ManagerState)
      (Event.keydown Key.tab 7))
      (Event.input "Hello world!".toList (some 12)
        ⟨300, [⟨"w", "", "world!", [], 0⟩], false, ⟨0, 0, 0⟩⟩)).currentSuggestion
      = none := by
  have h := commit_suppression_window
    (⟨⟨EdKind.native, "Hello wor".toList, some 9⟩, none,
        some ⟨"w", "", "world!", [], 0⟩, false, 0, 0⟩ : ManagerState)
    ⟨"w", "", "world!", [], 0⟩ 7 (by decide)
  exact ⟨h.1, (h.2 "Hello world!".toList (some 12)
    ⟨300, [⟨"w", "", "world!", [], 0⟩], false, ⟨0, 0, 0⟩⟩ (by decide)).1⟩

/-- C5 (counterexample): during IME composition `handleInput` returns
before the length check, so an input event with a 1-character current
word leaves a previously active suggestion in place instead of clearing
it. -/
theorem short_text_clears_counterexample :
    (getCurrentText ⟨EdKind.native, "h".toList, some 1⟩).length < 2
    ∧ (step (⟨⟨EdKind.native, "h".toList, some 1⟩, none,
        some ⟨"a", "x", "Hi there!", [], 0⟩, true, 0, 0⟩ : ManagerState)
      (Event.input "h".toList (some 1)
        ⟨5, [], false, ⟨0, 0, 0⟩⟩)).currentSuggestion
      = some ⟨"a", "x", "Hi there!", [], 0⟩ := by decide

/-- C5 (amended): for every input event processed while no IME
composition is in progress, if the extracted current text is empty or
shorter than 2 characters then no suggestion is active afterwards and
the ghost overlay handle is cleared (the suppressed path clears as well,
so no suppression hypothesis is needed; during composition the handler
leaves existing state untouched). -/
theorem short_text_clears_amended (st : ManagerState) (newText : List Char)
    (newSel : Option Nat) (env : InputEnv)
    (h2 : st.isComposing = false)
    (h3 : (getCurrentText ⟨st.editable.kind, newText, newSel⟩).length < 2) :
    (step st (Event.input newText newSel env)).currentSuggestion = none
    ∧ (step st (Event.input newText newSel env)).ghostElement = none :=
  handleInput_short_clears
    { st with editable := { st.editable with text := newText, sel := newSel } }
    env h2 h3

/-- C5 (witness): with composition over, the same 1-character input event
clears the stale suggestion. -/
theorem short_text_clears_amended_witness :
    (step (⟨⟨EdKind.native, "h".toList, some 1⟩, none,
        some ⟨"a", "x", "Hi there!", [], 0⟩, false, 0, 0⟩ : ManagerState)
      (Event.input "h".toList (some 1)
        ⟨5, [], false, ⟨0, 0, 0⟩⟩)).currentSuggestion = none := by
  exact (short_text_clears_amended
    (⟨⟨EdKind.native, "h".toList, some 1⟩, none,
        some ⟨"a", "x", "Hi there!", [], 0⟩, false, 0, 0⟩ : ManagerState)
    "h".toList (some 1) ⟨5, [], false, ⟨0, 0, 0⟩⟩ (by decide) (by decide)).1

/-- C6: dismissing an active suggestion with Escape leaves the editable —
its text and its caret — exactly unchanged, while the suggestion and the
ghost overlay handle are cleared; no text mutation happens on this
path. -/
theorem escape_dismiss_frame (st : ManagerState) (r : ResponseRecord)
    (now : Nat) (hs : st.currentSuggestion = some r) :
    (step st (Event.keydown Key.escape now)).editable = st.editable
    ∧ (step st (Event.keydown Key.escape now)).currentSuggestion = none
    ∧ (step st (Event.keydown Key.escape now)).ghostElement = none := by
  have hstep : step st (Event.keydown Key.escape now) = clearSuggestion st := by
    simp [step, handleKeydown, hs]
  rw [hstep]
  simp

/-- C6 (witness): Escape on a concrete active-suggestion state. -/
theorem escape_dismiss_frame_witness :
    (step (⟨⟨EdKind.ce, "Hi th".toList, some 5⟩, some ⟨"Hi there!".toList, true⟩,
        some ⟨"a", "x", "Hi there!", [], 0⟩, false, 0, 1⟩ : ManagerState)
      (Event.keydown Key.escape 9)).editable = ⟨EdKind.ce, "Hi th".toList, some 5⟩
    ∧ (step (⟨⟨EdKind.ce, "Hi th".toList, some 5⟩, some ⟨"Hi there!".toList, true⟩,
        some ⟨"a", "x", "Hi there!", [], 0⟩, false, 0, 1⟩ : ManagerState)
      (Event.keydown Key.escape 9)).currentSuggestion = none := by
  have h := escape_dismiss_frame
    (⟨⟨EdKind.ce, "Hi th".toList, some 5⟩, some ⟨"Hi there!".toList, true⟩,
        some ⟨"a", "x", "Hi there!", [], 0⟩, false, 0, 1⟩ : ManagerState)
    ⟨"a", "x", "Hi there!", [], 0⟩ 9 (by decide)
  exact ⟨h.1, h.2.1⟩

/-- C7: in Strategy B, when the overlay would cross the host container's
right edge (`left + overlayWidth > containerRight - 5`) and the remaining
space is at most the minimum usable width of 50 px
(`containerRight - left - 10 ≤ 50`), `positionTwitterOverlay` never
reaches `appendChild`: the overlay is not rendered at all rather than
clipped or overflowing. -/
theorem strategyB_insufficient_space_no_render (hasSel : Bool)
    (lay : TwitterLayout) (h1 : hasSel = true)
    (h2 : lay.containerRight - 5 < lay.rectRight + 1 + lay.overlayWidth)
    (h3 : lay.containerRight - (lay.rectRight + 1) - 10 ≤ 50) :
    positionTwitterOverlay hasSel lay = TwitterPlacement.notAppended := by
  subst h1
  unfold positionTwitterOverlay
  rw [if_neg (by simp), if_pos h2, if_neg (by omega), if_neg (by omega)]

/-- C7 (witness): caret rectangle ending at 100 in a container ending at
140 with a 50 px remainder: 29 px remain, the overlay is not appended. -/
theorem strategyB_insufficient_space_no_render_witness :
    positionTwitterOverlay true ⟨100, 140, 50⟩ = TwitterPlacement.notAppended :=
  strategyB_insufficient_space_no_render true ⟨100, 140, 50⟩ rfl
    (by decide) (by decide)

/-- C8 (counterexample): with a native input holding `"hi "` and the
caret after the trailing space, the contiguous non-whitespace run ending
at the caret is empty, but `getCurrentText` returns `"hi"`: the code
trims the text before splitting, so whitespace immediately before the
caret is skipped over. -/
theorem current_word_run_counterexample :
    getCurrentText ⟨EdKind.native, "hi ".toList, some 3⟩ = "hi".toList
    ∧ runEndingAtCaret ("hi ".toList.take 3) = []
    ∧ "hi".toList ≠ ([] : List Char) := by decide

/-- C8 (amended): `getCurrentText` returns the contiguous non-whitespace
run ending at the caret after first discarding any whitespace
immediately before the caret (`currentWordSpec`); it returns the empty
string when no selection exists on a contenteditable, when the caret is
at the start of the content (the run over the empty prefix is empty),
and for unrecognised element kinds; the extraction is a pure function of
the element state. -/
theorem getCurrentText_characterization (k : EdKind) (text : List Char)
    (sel : Option Nat) :
    getCurrentText ⟨k, text, sel⟩
      = (match k, sel with
         | EdKind.ce, none => []
         | EdKind.ce, some caret => currentWordSpec (text.take caret)
         | EdKind.native, s => currentWordSpec (text.take (s.getD 0))
         | EdKind.other, _ => ([] : List Char)) := by
  cases k <;> cases sel <;> simp [getCurrentText, lastWordJS_eq]

/-- C9: if the document holds exactly as many overlay nodes of a manager
as its handle accounts for (`OverlayInv`, true of the freshly
constructed manager, which starts with no ghost and no overlay in the
document), then after any sequence of input, keydown, delete-check,
blur and composition events the invariant still holds and at most one
rendered overlay node exists. -/
theorem overlay_at_most_one (st : ManagerState) (es : List Event)
    (h : OverlayInv st) :
    OverlayInv (run st es) ∧ (run st es).docOverlays ≤ 1 := by
  have hinv := inv_run st es h
  refine ⟨hinv, ?_⟩
  rw [hinv]
  exact overlayWeight_le_one _

/-- C9 (witness): a fresh contenteditable manager run through an input
event that shows a suggestion (LinkedIn-style overlay), a Tab commit and
an Escape keeps at most one rendered overlay. -/
theorem overlay_at_most_one_witness :
    OverlayInv (run
      (⟨⟨EdKind.ce, "Hi".toList, some 2⟩, none, none, false, 0, 0⟩ : ManagerState)
      [Event.input "Hi".toList (some 2)
        ⟨5, [⟨"a", "x", "Hi there!", [], 0⟩], false, ⟨0, 300, 10⟩⟩,
       Event.keydown Key.tab 6,
       Event.keydown Key.escape 7])
    ∧ (run
      (⟨⟨EdKind.ce, "Hi".toList, some 2⟩, none, none, false, 0, 0⟩ : ManagerState)
      [Event.input "Hi".toList (some 2)
        ⟨5, [⟨"a", "x", "Hi there!", [], 0⟩], false, ⟨0, 300, 10⟩⟩,
       Event.keydown Key.tab 6,
       Event.keydown Key.escape 7]).docOverlays ≤ 1 :=
  overlay_at_most_one
    (⟨⟨EdKind.ce, "Hi".toList, some 2⟩, none, none, false, 0, 0⟩ : ManagerState)
    [Event.input "Hi".toList (some 2)
      ⟨5, [⟨"a", "x", "Hi there!", [], 0⟩], false, ⟨0, 300, 10⟩⟩,
     Event.keydown Key.tab 6,
     Event.keydown Key.escape 7]
    (by exact (by decide :
      (⟨⟨EdKind.ce, "Hi".toList, some 2⟩, none, none, false, 0, 0⟩
        : ManagerState).docOverlays
      = overlayWeight (⟨⟨EdKind.ce, "Hi".toList, some 2⟩, none, none, false, 0,
          0⟩ : ManagerState).ghostElement))

/-- C10: for a tracked native input/textarea that starts with no ghost
handle and no overlay node in the document (as after construction), no
event sequence ever creates or appends a ghost overlay — the handle
stays `none` and the document count stays 0 — even though an input event
with a matching prefix still makes the first matching record the active
suggestion, and Tab still commits the record's full text into the
element's value via `replaceInInput`. -/
theorem native_input_no_overlay (st : ManagerState)
    (hk : st.editable.kind = EdKind.native) (hg : st.ghostElement = none)
    (hd : st.docOverlays = 0) :
    (∀ es : List Event,
      (run st es).ghostElement = none ∧ (run st es).docOverlays = 0)
    ∧ (∀ newText newSel env,
        st.suppressedUntil ≤ env.now → st.isComposing = false →
        2 ≤ (getCurrentText ⟨EdKind.native, newText, newSel⟩).length →
        (step st (Event.input newText newSel env)).currentSuggestion
          = (env.cache.filter (matchesPfx
              (getCurrentText ⟨EdKind.native, newText, newSel⟩))).head?)
    ∧ (∀ now r, st.currentSuggestion = some r →
        (step st (Event.keydown Key.tab now)).editable
          = replaceInInput st.editable.text st.editable.sel (recKey r)) := by
  refine ⟨fun es => run_native_no_ghost st es hk hg hd, ?_, ?_⟩
  · intro newText newSel env hsup hcomp hlen
    have hed : ({ st with editable :=
        { st.editable with text := newText, sel := newSel } } : ManagerState).editable
        = ⟨EdKind.native, newText, newSel⟩ := by
      show Editable.mk st.editable.kind newText newSel = _
      rw [hk]
    have hfm := handleInput_first_match
      { st with editable := { st.editable with text := newText, sel := newSel } } env
      hsup hcomp (by rw [hed]; exact hlen)
    rw [hed] at hfm
    exact hfm
  · intro now r hsr
    have hstep : step st (Event.keydown Key.tab now) = acceptSuggestion st now := by
      simp [step, handleKeydown, hsr]
    rw [hstep]
    exact acceptSuggestion_native st r now hsr hk

/-- C10 (witness): a textarea manager run through a matching input event
and a Tab commit never has a ghost handle or a rendered overlay, while
the commit still lands in the value. -/
theorem native_input_no_overlay_witness :
    ((run (⟨⟨EdKind.native, "Hi".toList, some 2⟩, none, none, false, 0, 0⟩
        : ManagerState)
      [Event.input "Hi".toList (some 2)
        ⟨5, [⟨"a", "x", "Hi there!", [], 0⟩], false, ⟨0, 300, 10⟩⟩,
       Event.keydown Key.tab 6]).ghostElement = none)
    ∧ ((run (⟨⟨EdKind.native, "Hi".toList, some 2⟩, none, none, false, 0, 0⟩
        : ManagerState)
      [Event.input "Hi".toList (some 2)
        ⟨5, [⟨"a", "x", "Hi there!", [], 0⟩], false, ⟨0, 300, 10⟩⟩,
       Event.keydown Key.tab 6]).docOverlays = 0) :=
  (native_input_no_overlay
    (⟨⟨EdKind.native, "Hi".toList, some 2⟩, none, none, false, 0, 0⟩ : ManagerState)
    (by decide) (by decide) (by decide)).1
    [Event.input "Hi".toList (some 2)
      ⟨5, [⟨"a", "x", "Hi there!", [], 0⟩], false, ⟨0, 300, 10⟩⟩,
     Event.keydown Key.tab 6]

end Canner
